import Mathlib

/-!
Verification of the incremental caching and calendar-aligned merge engine of
the ruonia-forecast repository (src/data/calendars.py, src/data/merged_data.py,
src/data/fetch_usd.py and sibling fetchers).

Dates are modelled as integers counting calendar days from an epoch chosen so
that day 0 is a Monday; the weekday of day `d` is `d % 7`, with Saturday = 5
and Sunday = 6.  A pandas `CustomBusinessDay(holidays=...)` is modelled as a
finite list of holiday dates together with the standard weekend rule.
-/

/-- A business calendar: the weekend rule plus a finite set of excluded
holiday dates (`CustomBusinessDay(holidays=...)` in `calendars.py`). -/
structure BusinessCalendar where
  holidays : List Int
deriving DecidableEq, Repr

/-- Saturday/Sunday test for the fixed Monday-epoch encoding. -/
def isWeekend (d : Int) : Bool := d % 7 == 5 || d % 7 == 6

/-- `bday.is_on_offset(d)` for a `CustomBusinessDay`: not a weekend and not a
configured holiday. -/
def isBusinessDay (cal : BusinessCalendar) (d : Int) : Bool :=
  !(isWeekend d) && !(cal.holidays.contains d)

/-- An upper bound on every holiday of the calendar (0 when there are none). -/
def holidayBound (cal : BusinessCalendar) : Int :=
  cal.holidays.foldr (fun h m => max h m) 0

/-- One-day-at-a-time forward roll with explicit fuel; `rollforward` supplies
enough fuel for the walk to reach a business day. -/
def rollForwardAux (cal : BusinessCalendar) : Nat → Int → Int
  | 0, d => d
  | fuel + 1, d => if isBusinessDay cal d then d else rollForwardAux cal fuel (d + 1)

/-- Fuel that always suffices: past `holidayBound` only weekends block, and at
most two consecutive days are weekend days. -/
def rollForwardFuel (cal : BusinessCalendar) (d : Int) : Nat :=
  (holidayBound cal + 1 - d).toNat + 3

/-- `bday.rollforward(d)`: the first business day at or after `d`. -/
def rollforward (cal : BusinessCalendar) (d : Int) : Int :=
  rollForwardAux cal (rollForwardFuel cal d) d

/-- `apply_lag` from `calendars.py`: shift by `lag_days` calendar days, then
keep the shifted date if it is on-offset, otherwise roll forward. -/
def apply_lag (d : Int) (lag_days : Int) (cal : BusinessCalendar) : Int :=
  let shifted := d + lag_days
  if isBusinessDay cal shifted then shifted else rollforward cal shifted

theorem rollForwardAux_ge (cal : BusinessCalendar) :
    ∀ (fuel : Nat) (d : Int), d ≤ rollForwardAux cal fuel d := by
  intro fuel
  induction fuel with
  | zero => intro d; simp [rollForwardAux]
  | succ n ih =>
    intro d
    simp only [rollForwardAux]
    by_cases h : isBusinessDay cal d = true
    · simp [h]
    · simp only [h, if_false]
      have := ih (d + 1)
      omega

theorem mem_le_foldr_max (h : Int) : ∀ (l : List Int), h ∈ l → h ≤ l.foldr (fun x m => max x m) 0 := by
  intro l
  induction l with
  | nil => intro hmem; cases hmem
  | cons a as ih =>
    intro hmem
    simp only [List.foldr_cons]
    rcases List.mem_cons.mp hmem with rfl | hmem2
    · exact le_max_left _ _
    · exact le_trans (ih hmem2) (le_max_right _ _)

theorem holiday_le_bound (cal : BusinessCalendar) (h : Int) (hmem : h ∈ cal.holidays) :
    h ≤ holidayBound cal :=
  mem_le_foldr_max h cal.holidays hmem

/-- Somewhere within the fuel window there is a business day. -/
theorem exists_business_day (cal : BusinessCalendar) (d : Int) :
    ∃ e : Int, d ≤ e ∧ e < d + (rollForwardFuel cal d : Int) ∧ isBusinessDay cal e = true := by
  set H := holidayBound cal with hH
  set t : Int := max d (H + 1) with ht
  set off : Int := if t % 7 = 5 then 2 else if t % 7 = 6 then 1 else 0 with hoff
  refine ⟨t + off, ?_, ?_, ?_⟩
  · have : d ≤ t := le_max_left _ _
    have : (0 : Int) ≤ off := by
      rw [hoff]; split <;> try split
      all_goals omega
    omega
  · have hofle : off ≤ 2 := by
      rw [hoff]; split <;> try split
      all_goals omega
    have htle : t ≤ max d (H + 1) := le_of_eq ht
    simp only [rollForwardFuel, ← hH]
    have hmax : t = d ∨ t = H + 1 := by
      rw [ht]; rcases max_choice d (H + 1) with h | h <;> [left; right] <;> exact h
    rcases hmax with h | h <;> omega
  · have hnw : isWeekend (t + off) = false := by
      simp only [isWeekend, Bool.or_eq_false_iff, beq_eq_false_iff_ne]
      constructor
      · rw [hoff]; split <;> try split
        all_goals omega
      · rw [hoff]; split <;> try split
        all_goals omega
    have hnh : (t + off) ∉ cal.holidays := by
      intro hmem
      have hle : t + off ≤ H := holiday_le_bound cal _ hmem
      have h1 : H + 1 ≤ t := le_max_right _ _
      have h0 : (0 : Int) ≤ off := by
        rw [hoff]; split <;> try split
        all_goals omega
      omega
    simp [isBusinessDay, hnw, hnh]

theorem rollForwardAux_isBusinessDay (cal : BusinessCalendar) :
    ∀ (fuel : Nat) (d e : Int), d ≤ e → e < d + (fuel : Int) → isBusinessDay cal e = true →
      isBusinessDay cal (rollForwardAux cal fuel d) = true := by
  intro fuel
  induction fuel with
  | zero => intro d e h1 h2 _; omega
  | succ n ih =>
    intro d e h1 h2 he
    simp only [rollForwardAux]
    by_cases hd : isBusinessDay cal d = true
    · simp [hd]
    · simp only [hd, if_false]
      have hne : d ≠ e := by
        intro hcontr; rw [hcontr] at hd; exact hd he
      have h1d : d + 1 ≤ e := by omega
      refine ih (d + 1) e h1d (by push_cast at h2 ⊢; omega) he

theorem rollforward_isBusinessDay (cal : BusinessCalendar) (d : Int) :
    isBusinessDay cal (rollforward cal d) = true := by
  obtain ⟨e, h1, h2, h3⟩ := exists_business_day cal d
  exact rollForwardAux_isBusinessDay cal (rollForwardFuel cal d) d e h1 h2 h3

theorem rollforward_ge (cal : BusinessCalendar) (d : Int) : d ≤ rollforward cal d :=
  rollForwardAux_ge cal (rollForwardFuel cal d) d

theorem apply_lag_ge (d lag_days : Int) (cal : BusinessCalendar) :
    d + lag_days ≤ apply_lag d lag_days cal := by
  unfold apply_lag
  by_cases h : isBusinessDay cal (d + lag_days) = true
  · simp [h]
  · simp only [h, if_false]
    exact rollforward_ge cal (d + lag_days)

theorem apply_lag_isBusinessDay (d lag_days : Int) (cal : BusinessCalendar) :
    isBusinessDay cal (apply_lag d lag_days cal) = true := by
  unfold apply_lag
  by_cases h : isBusinessDay cal (d + lag_days) = true
  · simp [h]
  · simp only [h, if_false]
    exact rollforward_isBusinessDay cal (d + lag_days)

def dedupFirstF {α : Type} [DecidableEq α] : Nat → List α → List α
  | 0, _ => []
  | _ + 1, [] => []
  | n + 1, a :: as => a :: dedupFirstF n (as.filter (fun b => !(b == a)))

/-- `drop_duplicates()` in pandas: keep the first occurrence of each row. -/
def dedupFirst {α : Type} [DecidableEq α] (l : List α) : List α :=
  dedupFirstF l.length l


theorem dedupFirstF_fuel {α : Type} [DecidableEq α] :
    ∀ (n : Nat) (l : List α), l.length ≤ n → dedupFirstF n l = dedupFirst l := by
  intro n
  induction n using Nat.strong_induction_on with
  | _ n ih =>
    intro l hl
    match n, l with
    | 0, [] => rfl
    | 0, a :: as => simp at hl
    | n + 1, [] => rfl
    | n + 1, a :: as =>
      simp only [dedupFirstF, dedupFirst, List.length_cons]
      have hlen : (as.filter (fun b => !(b == a))).length ≤ as.length :=
        List.length_filter_le _ as
      have h1 : dedupFirstF n (as.filter (fun b => !(b == a)))
          = dedupFirst (as.filter (fun b => !(b == a))) := by
        refine ih n (by omega) _ (by simp at hl; omega)
      have h2 : dedupFirstF as.length (as.filter (fun b => !(b == a)))
          = dedupFirst (as.filter (fun b => !(b == a))) := by
        refine ih as.length (by simp at hl; omega) _ hlen
      rw [h1, h2]

theorem dedupFirst_nil {α : Type} [DecidableEq α] : dedupFirst ([] : List α) = [] := rfl

theorem dedupFirst_cons {α : Type} [DecidableEq α] (a : α) (as : List α) :
    dedupFirst (a :: as) = a :: dedupFirst (as.filter (fun b => !(b == a))) := by
  simp only [dedupFirst, List.length_cons, dedupFirstF]
  rw [dedupFirstF_fuel as.length _ (List.length_filter_le _ as)]
  rfl

theorem mem_dedupFirst {α : Type} [DecidableEq α] (x : α) :
    ∀ (l : List α), x ∈ dedupFirst l ↔ x ∈ l := by
  suffices h : ∀ (n : Nat) (l : List α), l.length ≤ n → (x ∈ dedupFirst l ↔ x ∈ l) by
    intro l; exact h l.length l le_rfl
  intro n
  induction n using Nat.strong_induction_on with
  | _ n ih =>
    intro l hl
    match l with
    | [] => simp [dedupFirst_nil]
    | a :: as =>
      rw [dedupFirst_cons]
      simp only [List.mem_cons]
      have hrec := ih as.length (by simp at hl; omega) (as.filter (fun b => !(b == a)))
        (List.length_filter_le _ as)
      rw [hrec]
      simp only [List.mem_filter, Bool.not_eq_eq_eq_not, Bool.not_true, beq_eq_false_iff_ne]
      constructor
      · rintro (rfl | ⟨hmem, _⟩)
        · exact .inl rfl
        · exact .inr hmem
      · rintro (rfl | hmem)
        · exact .inl rfl
        · by_cases hx : x = a
          · exact .inl hx
          · exact .inr ⟨hmem, hx⟩

theorem filter_dedupFirst {α : Type} [DecidableEq α] (p : α → Bool) :
    ∀ (l : List α), (dedupFirst l).filter p = dedupFirst (l.filter p) := by
  suffices h : ∀ (n : Nat) (l : List α), l.length ≤ n →
      (dedupFirst l).filter p = dedupFirst (l.filter p) by
    intro l; exact h l.length l le_rfl
  intro n
  induction n using Nat.strong_induction_on with
  | _ n ih =>
    intro l hl
    match l with
    | [] => simp [dedupFirst_nil]
    | a :: as =>
      rw [dedupFirst_cons]
      by_cases hpa : p a = true
      · rw [List.filter_cons_of_pos hpa, List.filter_cons_of_pos hpa, dedupFirst_cons]
        congr 1
        rw [ih as.length (by simp at hl; omega) _ (List.length_filter_le _ as),
          List.filter_filter, List.filter_filter]
        congr 1
        refine List.filter_congr ?_
        intro b _
        exact Bool.and_comm _ _
      · rw [List.filter_cons_of_neg (by simpa using hpa), List.filter_cons_of_neg (by simpa using hpa)]
        rw [ih as.length (by simp at hl; omega) _ (List.length_filter_le _ as),
          List.filter_filter]
        congr 1
        refine List.filter_congr ?_
        intro b _
        by_cases hpb : p b = true
        · have hba : (b == a) = false := by
            refine beq_eq_false_iff_ne.mpr ?_
            intro hcontr
            subst hcontr
            exact hpa hpb
          simp [hpb, hba]
        · simp [Bool.eq_false_iff.mpr hpb]

theorem dedupFirst_append_left {α : Type} [DecidableEq α] :
    ∀ (xs ys : List α), dedupFirst (dedupFirst xs ++ ys) = dedupFirst (xs ++ ys) := by
  suffices h : ∀ (n : Nat) (xs ys : List α), xs.length ≤ n →
      dedupFirst (dedupFirst xs ++ ys) = dedupFirst (xs ++ ys) by
    intro xs ys; exact h xs.length xs ys le_rfl
  intro n
  induction n using Nat.strong_induction_on with
  | _ n ih =>
    intro xs ys hl
    match xs with
    | [] => simp [dedupFirst_nil]
    | a :: as =>
      rw [dedupFirst_cons, List.cons_append, List.cons_append, dedupFirst_cons, dedupFirst_cons]
      congr 1
      rw [List.filter_append, List.filter_append, filter_dedupFirst]
      have hself : (as.filter (fun b => !(b == a))).filter (fun b => !(b == a))
          = as.filter (fun b => !(b == a)) := by
        rw [List.filter_filter]
        refine List.filter_congr ?_
        intro b _
        exact Bool.and_self _
      rw [hself]
      exact ih as.length (by simp at hl; omega) _ _ (List.length_filter_le _ as)

theorem dedupFirst_idem {α : Type} [DecidableEq α] (l : List α) :
    dedupFirst (dedupFirst l) = dedupFirst l := by
  have h := dedupFirst_append_left l []
  simpa using h

theorem dedupFirst_append_right {α : Type} [DecidableEq α] :
    ∀ (xs ys : List α), dedupFirst (xs ++ dedupFirst ys) = dedupFirst (xs ++ ys) := by
  suffices h : ∀ (n : Nat) (xs ys : List α), xs.length ≤ n →
      dedupFirst (xs ++ dedupFirst ys) = dedupFirst (xs ++ ys) by
    intro xs ys; exact h xs.length xs ys le_rfl
  intro n
  induction n using Nat.strong_induction_on with
  | _ n ih =>
    intro xs ys hl
    match xs with
    | [] => simpa using dedupFirst_idem ys
    | a :: as =>
      rw [List.cons_append, List.cons_append, dedupFirst_cons, dedupFirst_cons]
      congr 1
      rw [List.filter_append, List.filter_append, filter_dedupFirst]
      exact ih as.length (by simp at hl; omega) _ _ (List.length_filter_le _ as)

/-- `pd.date_range(a, b, freq="D")`: every calendar day from `a` to `b`
inclusive (empty when `b < a`). -/
def daysFromTo (a b : Int) : List Int :=
  if b < a then [] else (List.range ((b - a).toNat + 1)).map (fun (i : Nat) => a + (i : Int))

/-- `pd.date_range(a, b, freq=cal)`: the business days of `cal` in `[a, b]`. -/
def dateRangeB (cal : BusinessCalendar) (a b : Int) : List Int :=
  (daysFromTo a b).filter (isBusinessDay cal)

theorem mem_daysFromTo (a b d : Int) : d ∈ daysFromTo a b ↔ a ≤ d ∧ d ≤ b := by
  unfold daysFromTo
  by_cases h : b < a
  · simp only [h, if_true]
    simp only [List.not_mem_nil, false_iff]
    omega
  · simp only [h, if_false, List.mem_map]
    constructor
    · rintro ⟨i, hi, rfl⟩
      have hlt : i < (b - a).toNat + 1 := List.mem_range.mp hi
      omega
    · rintro ⟨h1, h2⟩
      exact ⟨(d - a).toNat, List.mem_range.mpr (by omega), by omega⟩

theorem daysFromTo_sorted (a b : Int) : List.Pairwise (· < ·) (daysFromTo a b) := by
  unfold daysFromTo
  split
  · exact List.Pairwise.nil
  · rw [List.pairwise_map]
    have h := List.pairwise_lt_range ((b - a).toNat + 1)
    refine h.imp ?_
    intro i j hij
    omega

/-- One row of a per-source cached frame, as the engine consumes it: its
`EFFECTIVE_DATE` plus the tuple of remaining (non-key) columns, `none` on the
placeholder rows of a stub segment. -/
structure RawRecord where
  eff : Int
  val : Option Int
deriving DecidableEq, Repr

/-- One persisted parquet segment `{prefix}_{from}_{to}.parquet`. -/
structure Segment where
  dFrom : Int
  dTo : Int
  recs : List RawRecord
deriving DecidableEq, Repr

/-- A row of the standardized per-source frame: `KEY_DATE` plus the prefixed
value columns. -/
structure SrcRow where
  key : Int
  val : Option Int
deriving DecidableEq, Repr

/-- The segments whose range intersects the request
(`if d_to >= self.start and d_from <= self.end`). -/
def relevantSegments (start stop : Int) (cache : List Segment) : List Segment :=
  cache.filter (fun s => decide (start ≤ s.dTo) && decide (s.dFrom ≤ stop))

/-- `pd.concat(cached).drop_duplicates()`. -/
def cachedRecords (start stop : Int) (cache : List Segment) : List RawRecord :=
  dedupFirst ((relevantSegments start stop cache).flatMap (fun s => s.recs))

/-- `want_dates`: the dates the request needs, business days of the source's
calendar. -/
def want_dates (cal : BusinessCalendar) (start stop : Int) : List Int :=
  dateRangeB cal start stop

/-- `have_dates`: the distinct `EFFECTIVE_DATE`s present in the loaded cache. -/
def have_dates (start stop : Int) (cache : List Segment) : List Int :=
  dedupFirst ((cachedRecords start stop cache).map (fun r => r.eff))

/-- `missing = sorted(set(want_dates) - set(have_dates))`; `want_dates` is
ascending and duplicate-free, so filtering it preserves the sorted order. -/
def missing_dates (cal : BusinessCalendar) (start stop : Int) (cache : List Segment) :
    List Int :=
  (want_dates cal start stop).filter
    (fun d => !((have_dates start stop cache).contains d))

/-- The stub written when a fetch returns no rows: one `EFFECTIVE_DATE`
placeholder per calendar business day of the fetched range (or the single
date `a` when that range is empty). -/
def stubRecords (cal : BusinessCalendar) (a b : Int) : List RawRecord :=
  (if (dateRangeB cal a b).isEmpty then [a] else dateRangeB cal a b).map
    (fun d => (⟨d, none⟩ : RawRecord))

/-- Column standardization of `_fetch_with_cache`: `KEY_DATE` is a copy of
`EFFECTIVE_DATE`, the `EFFECTIVE_DATE`/`DATE` columns are dropped and the
remaining value columns are prefixed with the source name. -/
def standardize (recs : List RawRecord) : List SrcRow :=
  recs.map (fun r => (⟨r.eff, r.val⟩ : SrcRow))

structure FetchResult where
  rows : List SrcRow
  cache : List Segment
  requests : List (Int × Int)
deriving DecidableEq, Repr

/-- `DataMerger._fetch_with_cache` for one source: load the intersecting
segments, compute the missing dates, fetch `[min(missing), max(missing)]` in
one request when anything is missing (persisting the result, or a stub when
it is empty), and return the standardized union of cache and fresh data.
Persisting writes the file `{prefix}_{a}_{b}.parquet`: `to_parquet` silently
replaces an existing file of that name, so a same-named segment already in
the cache is destroyed — modelled by filtering it out before appending. -/
def fetch_with_cache (cal : BusinessCalendar) (fetcher : Int → Int → List RawRecord)
    (start stop : Int) (cache : List Segment) : FetchResult :=
  let cached := cachedRecords start stop cache
  match missing_dates cal start stop cache with
  | [] => ⟨standardize cached, cache, []⟩
  | m :: ms =>
    let a := m
    let b := ms.getLastD m
    let part := fetcher a b
    let stored := if part.isEmpty then stubRecords cal a b else part
    let full := dedupFirst (cached ++ dedupFirst stored)
    ⟨standardize full,
     cache.filter (fun s => !(s.dFrom == a && s.dTo == b)) ++ [⟨a, b, stored⟩],
     [(a, b)]⟩

/-- Modelled from the spec: partition an ascending list of dates into maximal
runs of consecutive calendar days; each run becomes one
`(date_from, date_to)` fetch request.  This is the behavior §4.4 of the spec
documents; it is compared against what `_fetch_with_cache` actually issues. -/
def contiguousRuns : List Int → List (Int × Int)
  | [] => []
  | d :: ds =>
    match contiguousRuns ds with
    | [] => [(d, d)]
    | (f, t) :: rest =>
      if f == d + 1 then (d, t) :: rest else (d, d) :: (f, t) :: rest

/-- A merged-panel row: `KEY_DATE` plus one value slot per source column. -/
structure PRow where
  key : Int
  vals : List (Option Int)
deriving DecidableEq, Repr

def rowLe (a b : PRow) : Prop := a.key ≤ b.key

instance : DecidableRel rowLe := fun a b => inferInstanceAs (Decidable (a.key ≤ b.key))

instance : IsTotal PRow rowLe := ⟨fun a b => Int.le_total a.key b.key⟩

instance : IsTrans PRow rowLe := ⟨fun _ _ _ h1 h2 => le_trans h1 h2⟩

/-- `merged.sort_values("KEY_DATE")`. -/
def sortRows (l : List PRow) : List PRow := List.insertionSort rowLe l

/-- `merged.drop_duplicates(subset="KEY_DATE", keep="last")`: a row survives
iff no later row has the same key. -/
def dedupKeyKeepLast : List PRow → List PRow
  | [] => []
  | r :: rs =>
    if rs.any (fun x => x.key == r.key) then dedupKeyKeepLast rs
    else r :: dedupKeyKeepLast rs

/-- The rows an outer merge produces for one join key `k`: all combinations of
matching rows of the two sides, with nulls where one side has no row for `k`.
`w` is the column count of `left`. -/
def joinGroup (w : Nat) (left : List PRow) (right : List SrcRow) (k : Int) : List PRow :=
  let lm := left.filter (fun r => r.key == k)
  let rm := right.filter (fun r => r.key == k)
  if lm.isEmpty then rm.map (fun r => (⟨k, List.replicate w none ++ [r.val]⟩ : PRow))
  else if rm.isEmpty then lm.map (fun l => (⟨k, l.vals ++ [none]⟩ : PRow))
  else lm.flatMap (fun l => rm.map (fun r => (⟨k, l.vals ++ [r.val]⟩ : PRow)))

/-- `left.merge(right, on="KEY_DATE", how="outer")`: the union of keys (sorted,
as pandas sorts outer-join keys), with the join groups of every key. -/
def outerJoin (w : Nat) (left : List PRow) (right : List SrcRow) : List PRow :=
  (dedupFirst (List.insertionSort (fun a b : Int => a ≤ b)
    (left.map (fun r => r.key) ++ right.map (fun r => r.key)))).flatMap
    (joinGroup w left right)

/-- A one-source frame as panel rows (`dfs[0]` before the merge loop). -/
def srcFrame (rows : List SrcRow) : List PRow :=
  rows.map (fun r => (⟨r.key, [r.val]⟩ : PRow))

/-- `merged = dfs[0]; for other in dfs[1:]: merged = merged.merge(other, ...)`. -/
def joinFrames : List (List SrcRow) → List PRow
  | [] => []
  | f :: fs =>
    (fs.foldl (fun acc g => (outerJoin acc.2 acc.1 g, acc.2 + 1)) (srcFrame f, 1)).1

/-- `merged.set_index("KEY_DATE").reindex(pd.date_range(start, end, freq="D"))`:
one row per calendar day of the request; days with no merged row become
all-null rows, merged rows with keys outside the range are dropped. -/
def reindexCal (start stop : Int) (w : Nat) (rows : List PRow) : List PRow :=
  (daysFromTo start stop).map (fun d =>
    match rows.find? (fun r => r.key == d) with
    | some r => (⟨d, r.vals⟩ : PRow)
    | none => (⟨d, List.replicate w none⟩ : PRow))

/-- One step of `DataFrame.ffill()`: keep a present value, else inherit the
running last-seen value of the column. -/
def ffillStep (prev cur : List (Option Int)) : List (Option Int) :=
  List.zipWith (fun p c => match c with | some v => some v | none => p) prev cur

/-- `DataFrame.ffill()`: propagate the last non-null value of every column
forward, never backward. -/
def ffillRows : List (Option Int) → List PRow → List PRow
  | _, [] => []
  | prev, r :: rs =>
    (⟨r.key, ffillStep prev r.vals⟩ : PRow) :: ffillRows (ffillStep prev r.vals) rs

/-- A source as `_FETCHERS`/`_CALENDARS` bind it: its working calendar and its
fetch callable. -/
structure SourceSpec where
  cal : BusinessCalendar
  fetcher : Int → Int → List RawRecord

/-- The per-source loop of `DataMerger.merge`: run `_fetch_with_cache` for
every source against its own cache, collecting frames, caches and issued
requests. -/
def runSources : List SourceSpec → List (List Segment) → Int → Int →
    List (List SrcRow) × List (List Segment) × List (Int × Int)
  | [], _, _, _ => ([], [], [])
  | s :: ss, caches, start, stop =>
    let r := fetch_with_cache s.cal s.fetcher start stop (caches.headD [])
    let rest := runSources ss caches.tail start stop
    (r.rows :: rest.1, r.cache :: rest.2.1, r.requests ++ rest.2.2)

structure MergeOut where
  panel : List PRow
  caches : List (List Segment)
  requests : List (Int × Int)
deriving DecidableEq, Repr

namespace DataMerger

/-- The merged result before calendar expansion: outer-join of all frames,
sorted by `KEY_DATE`, deduplicated keeping the last row per key. -/
def mergedSorted (frames : List (List SrcRow)) : List PRow :=
  dedupKeyKeepLast (sortRows (joinFrames frames))

/-- `DataMerger.merge`: fetch all sources through the cache, outer-join on
`KEY_DATE`, sort and dedup keys, optionally reindex to every calendar day of
`[start, stop]`, optionally forward-fill. -/
def merge (sources : List SourceSpec) (caches : List (List Segment))
    (start stop : Int) (fill_calendar forward_fill : Bool) : MergeOut :=
  let rsc := runSources sources caches start stop
  let m1 := mergedSorted rsc.1
  let m2 := if fill_calendar then reindexCal start stop sources.length m1 else m1
  let m3 := if forward_fill then ffillRows (List.replicate sources.length none) m2 else m2
  ⟨m3, rsc.2.1, rsc.2.2⟩

end DataMerger

/-! Fallible layer: the real fetchers raise (`requests` exceptions,
`raise_for_status`, `ValueError` on schema changes) and neither
`_fetch_with_cache` nor `DataMerger.merge` catches anything, so a fetcher
error propagates out of the whole merge.  `Except Unit` models an uncaught
exception. -/

/-- `_fetch_with_cache` with a fetcher that can raise. -/
def fetch_with_cacheE (cal : BusinessCalendar)
    (fetcher : Int → Int → Except Unit (List RawRecord))
    (start stop : Int) (cache : List Segment) : Except Unit FetchResult :=
  let cached := cachedRecords start stop cache
  match missing_dates cal start stop cache with
  | [] => .ok ⟨standardize cached, cache, []⟩
  | m :: ms =>
    let a := m
    let b := ms.getLastD m
    match fetcher a b with
    | .error e => .error e
    | .ok part =>
      let stored := if part.isEmpty then stubRecords cal a b else part
      let full := dedupFirst (cached ++ dedupFirst stored)
      .ok ⟨standardize full,
        cache.filter (fun s => !(s.dFrom == a && s.dTo == b)) ++ [⟨a, b, stored⟩],
        [(a, b)]⟩

/-- A source whose fetch callable can raise. -/
structure SourceSpecE where
  cal : BusinessCalendar
  fetcher : Int → Int → Except Unit (List RawRecord)

/-- The per-source loop of `merge` with raising fetchers: the first uncaught
error aborts the loop, later sources are never fetched. -/
def runSourcesE : List SourceSpecE → List (List Segment) → Int → Int →
    Except Unit (List (List SrcRow) × List (List Segment) × List (Int × Int))
  | [], _, _, _ => .ok ([], [], [])
  | s :: ss, caches, start, stop =>
    match fetch_with_cacheE s.cal s.fetcher start stop (caches.headD []) with
    | .error e => .error e
    | .ok r =>
      match runSourcesE ss caches.tail start stop with
      | .error e => .error e
      | .ok rest => .ok (r.rows :: rest.1, r.cache :: rest.2.1, r.requests ++ rest.2.2)

/-- `DataMerger.merge` with raising fetchers: no per-source error handling
exists, so any fetch error aborts the merge of every source. -/
def DataMerger.mergeE (sources : List SourceSpecE) (caches : List (List Segment))
    (start stop : Int) (fill_calendar forward_fill : Bool) : Except Unit MergeOut :=
  match runSourcesE sources caches start stop with
  | .error e => .error e
  | .ok rsc =>
    let m1 := DataMerger.mergedSorted rsc.1
    let m2 := if fill_calendar then reindexCal start stop sources.length m1 else m1
    let m3 := if forward_fill then ffillRows (List.replicate sources.length none) m2 else m2
    .ok ⟨m3, rsc.2.1, rsc.2.2⟩

/-! The USD/RUB fetcher (`fetch_usd.get_usd_rub`).  Timestamps are modelled in
minutes since midnight of the epoch: `PUBLICATION_TS = DATE + 15h30m`, i.e.
`date * 1440 + 930`. -/

/-- One row of the frame `get_usd_rub` returns: `DATE`, the `usd_rub` value,
and the `PUBLICATION_TS`/`EFFECTIVE_DATE` columns the fetcher itself adds. -/
structure UsdRecord where
  DATE : Int
  usd_rub : Int
  PUBLICATION_TS : Int
  EFFECTIVE_DATE : Int
deriving DecidableEq, Repr

def usdDateDesc (r s : UsdRecord) : Prop := s.DATE ≤ r.DATE

instance : DecidableRel usdDateDesc := fun r s => inferInstanceAs (Decidable (s.DATE ≤ r.DATE))

/-- `get_usd_rub` applied to the parsed remote rows `(data, curs)`: renames the
columns, computes `PUBLICATION_TS = DATE + 15:30` and
`EFFECTIVE_DATE = apply_lag(DATE, lag_days=1, bday=CBR_BDAY)` inside the
fetcher, and sorts by `DATE` descending. -/
def get_usd_rub (cal : BusinessCalendar) (raw : List (Int × Int)) : List UsdRecord :=
  List.insertionSort usdDateDesc
    (raw.map (fun p =>
      (⟨p.1, p.2, p.1 * 1440 + 930, apply_lag p.1 1 cal⟩ : UsdRecord)))

/-- What `_fetch_with_cache` does to a usd row at standardization: copy the
fetcher-supplied `EFFECTIVE_DATE` into `KEY_DATE` and drop
`EFFECTIVE_DATE`/`DATE`; no lag logic is applied by the engine. -/
def standardizeUsd (r : UsdRecord) : Int × Int × Int :=
  (r.EFFECTIVE_DATE, r.usd_rub, r.PUBLICATION_TS)

/-! Characterizations of the gap-detection data. -/

theorem mem_want_dates (cal : BusinessCalendar) (start stop d : Int) :
    d ∈ want_dates cal start stop ↔
      (start ≤ d ∧ d ≤ stop) ∧ isBusinessDay cal d = true := by
  unfold want_dates dateRangeB
  rw [List.mem_filter, mem_daysFromTo]

theorem mem_have_dates (start stop d : Int) (cache : List Segment) :
    d ∈ have_dates start stop cache ↔
      ∃ s ∈ cache, (start ≤ s.dTo ∧ s.dFrom ≤ stop) ∧ ∃ r ∈ s.recs, r.eff = d := by
  unfold have_dates cachedRecords relevantSegments
  rw [mem_dedupFirst]
  simp only [List.mem_map, mem_dedupFirst, List.mem_flatMap, List.mem_filter,
    Bool.and_eq_true, decide_eq_true_eq]
  constructor
  · rintro ⟨r, ⟨s, ⟨hs, hcond⟩, hr⟩, rfl⟩
    exact ⟨s, hs, hcond, r, hr, rfl⟩
  · rintro ⟨s, hs, hcond, r, hr, rfl⟩
    exact ⟨r, ⟨s, ⟨hs, hcond⟩, hr⟩, rfl⟩

theorem mem_missing_dates (cal : BusinessCalendar) (start stop d : Int)
    (cache : List Segment) :
    d ∈ missing_dates cal start stop cache ↔
      d ∈ want_dates cal start stop ∧ d ∉ have_dates start stop cache := by
  unfold missing_dates
  rw [List.mem_filter]
  simp

theorem missing_dates_sorted (cal : BusinessCalendar) (start stop : Int)
    (cache : List Segment) :
    List.Pairwise (· < ·) (missing_dates cal start stop cache) := by
  unfold missing_dates want_dates dateRangeB
  exact ((daysFromTo_sorted start stop).filter _).filter _

theorem pairwise_head_le_getLastD (m : Int) (ms : List Int)
    (hs : List.Pairwise (· < ·) (m :: ms)) :
    ∀ d ∈ m :: ms, m ≤ d ∧ d ≤ ms.getLastD m := by
  induction ms generalizing m with
  | nil =>
    intro d hd
    simp only [List.mem_singleton] at hd
    subst hd
    simp [List.getLastD]
  | cons x xs ih =>
    intro d hd
    have htail := ih x hs.of_cons
    have hmx : m < x := List.rel_of_pairwise_cons hs (List.mem_cons_self x xs)
    have hx : x ≤ x ∧ x ≤ xs.getLastD x := htail x (List.mem_cons_self x xs)
    rw [List.getLastD_cons]
    rcases List.mem_cons.mp hd with rfl | hd2
    · exact ⟨le_refl d, by omega⟩
    · have := htail d hd2
      have hmd : m < d := List.rel_of_pairwise_cons hs hd2
      exact ⟨by omega, this.2⟩

/-- C6: if the cached effective dates already cover every required
(business-day) date of some range `[a, b]` containing the request, the
computed missing set is empty and `_fetch_with_cache` issues no fetch and
leaves the cache untouched. -/
theorem c6_no_fetch_when_covered (cal : BusinessCalendar)
    (fetcher : Int → Int → List RawRecord) (start stop a b : Int)
    (cache : List Segment)
    (hsub1 : a ≤ start) (hsub2 : stop ≤ b)
    (hcov : ∀ d : Int, a ≤ d → d ≤ b → isBusinessDay cal d = true →
      d ∈ have_dates start stop cache) :
    missing_dates cal start stop cache = [] ∧
    (fetch_with_cache cal fetcher start stop cache).requests = [] ∧
    (fetch_with_cache cal fetcher start stop cache).cache = cache := by
  have hmiss : missing_dates cal start stop cache = [] := by
    unfold missing_dates
    rw [List.filter_eq_nil_iff]
    intro d hd
    obtain ⟨⟨h1, h2⟩, h3⟩ := (mem_want_dates cal start stop d).mp hd
    have hin : d ∈ have_dates start stop cache :=
      hcov d (by omega) (by omega) h3
    simp [hin]
  refine ⟨hmiss, ?_, ?_⟩ <;> simp [fetch_with_cache, hmiss]

/-- C3: `apply_lag(d, lag_days, cal)` always returns a date at least
`d + lag_days` that is a business day of `cal`, so every computed
`EFFECTIVE_DATE` is a business day of the source's calendar and never earlier
than `DATE + lag_days`; when `lag_days = 0` and `d` is itself a business day
the result is `d` itself. -/
theorem c3_apply_lag_spec (d lag_days : Int) (cal : BusinessCalendar) :
    d + lag_days ≤ apply_lag d lag_days cal ∧
    isBusinessDay cal (apply_lag d lag_days cal) = true ∧
    (isBusinessDay cal d = true → apply_lag d 0 cal = d) := by
  refine ⟨apply_lag_ge d lag_days cal, apply_lag_isBusinessDay d lag_days cal, ?_⟩
  intro hd
  unfold apply_lag
  simp [hd]

/-- Witness for C3 at the concrete calendar `{2}` (holiday on Wednesday of the
epoch week) and the business day `0`. -/
theorem c3_apply_lag_spec_witness :
    (0 : Int) + 0 ≤ apply_lag 0 0 (BusinessCalendar.mk [2]) ∧
    isBusinessDay (BusinessCalendar.mk [2]) (apply_lag 0 0 (BusinessCalendar.mk [2])) = true ∧
    apply_lag 0 0 (BusinessCalendar.mk [2]) = 0 := by
  obtain ⟨h1, h2, h3⟩ := c3_apply_lag_spec 0 0 (BusinessCalendar.mk [2])
  exact ⟨h1, h2, h3 (by decide)⟩

/-- A demonstration calendar with no holidays (weekends only). -/
def calDemo : BusinessCalendar := ⟨[]⟩

/-- A demonstration cache: one segment covering the epoch week's business days. -/
def cacheDemo : List Segment :=
  [⟨0, 4, [⟨0, some 1⟩, ⟨1, some 1⟩, ⟨2, some 1⟩, ⟨3, some 1⟩, ⟨4, some 1⟩]⟩]

/-- Witness for C6: the cache fully covers `[0, 4]` and the request `[0, 1]`
is a subrange, so nothing is fetched. -/
theorem c6_no_fetch_when_covered_witness :
    missing_dates calDemo 0 1 cacheDemo = [] ∧
    (fetch_with_cache calDemo (fun _ _ => []) 0 1 cacheDemo).requests = [] ∧
    (fetch_with_cache calDemo (fun _ _ => []) 0 1 cacheDemo).cache = cacheDemo := by
  refine c6_no_fetch_when_covered calDemo (fun _ _ => []) 0 1 0 4 cacheDemo
    (by decide) (by decide) ?_
  intro d h1 h2 h3
  have hhd : have_dates 0 1 cacheDemo = [0, 1, 2, 3, 4] := by decide
  rw [hhd]
  simp only [List.mem_cons, List.not_mem_nil, or_false]
  omega

theorem stubRecords_ne_nil (cal : BusinessCalendar) (a b : Int) :
    stubRecords cal a b ≠ [] := by
  unfold stubRecords
  split
  · simp
  · next hne =>
    intro hcontr
    rw [List.map_eq_nil_iff] at hcontr
    rw [hcontr] at hne
    simp at hne

theorem stubRecords_val_none (cal : BusinessCalendar) (a b : Int) :
    ∀ r ∈ stubRecords cal a b, r.val = none := by
  unfold stubRecords
  intro r hr
  rw [List.mem_map] at hr
  obtain ⟨d, _, rfl⟩ := hr
  rfl

theorem mem_stubRecords_of_range (cal : BusinessCalendar) (a b d : Int)
    (hd : d ∈ dateRangeB cal a b) :
    (⟨d, none⟩ : RawRecord) ∈ stubRecords cal a b := by
  unfold stubRecords
  have hne : (dateRangeB cal a b).isEmpty = false := by
    cases hcase : (dateRangeB cal a b).isEmpty
    · rfl
    · rw [List.isEmpty_iff] at hcase
      rw [hcase] at hd
      cases hd
  rw [hne]
  simp only [Bool.false_eq_true, if_false, List.mem_map]
  exact ⟨d, hd, rfl⟩

/-- C7 counterexample: the file written for a fetched span replaces any
same-named segment.  Here the cache holds a segment named `(1, 3)` whose only
record has `EFFECTIVE_DATE = 4` (a lag-rolled date outside its own span) plus
a stub named `(0, 0)`.  Requesting `[0, 4]` with an always-empty fetcher finds
`missing = [1, 2, 3]` and writes the stub for `(1, 3)`, destroying the record
for date 4 — so the identical second request finds day 4 missing again and
does issue a fetch. -/
theorem c7_counterexample :
    (fetch_with_cache calDemo (fun _ _ => []) 0 4
      [⟨1, 3, [⟨4, some 7⟩]⟩, ⟨0, 0, [⟨0, none⟩]⟩]).requests = [(1, 3)] ∧
    (fetch_with_cache calDemo (fun _ _ => []) 0 4
      (fetch_with_cache calDemo (fun _ _ => []) 0 4
        [⟨1, 3, [⟨4, some 7⟩]⟩, ⟨0, 0, [⟨0, none⟩]⟩]).cache).requests = [(4, 4)] ∧
    [((4 : Int), (4 : Int))] ≠ [] := by decide

/-- C7 amended: a fetch that legitimately returns no records still persists a
stub segment of value-less placeholder rows for the fetched span — overwriting
any same-named segment, since the code rewrites the file
`{prefix}_{a}_{b}.parquet` — and an identical subsequent request issues no
fetch provided no pre-existing segment shared the fetched span's name
(otherwise its records are destroyed and dates only they covered are fetched
again). -/
theorem c7_stub_prevents_refetch (cal : BusinessCalendar)
    (fetcher : Int → Int → List RawRecord) (start stop : Int) (cache : List Segment)
    (hempty : ∀ a b : Int, fetcher a b = []) :
    (missing_dates cal start stop cache = [] →
      (fetch_with_cache cal fetcher start stop
        (fetch_with_cache cal fetcher start stop cache).cache).requests = []) ∧
    (∀ m ms, missing_dates cal start stop cache = m :: ms →
      (fetch_with_cache cal fetcher start stop cache).cache
          = cache.filter (fun s => !(s.dFrom == m && s.dTo == ms.getLastD m))
              ++ [⟨m, ms.getLastD m, stubRecords cal m (ms.getLastD m)⟩] ∧
      stubRecords cal m (ms.getLastD m) ≠ [] ∧
      (∀ r ∈ stubRecords cal m (ms.getLastD m), r.val = none) ∧
      ((∀ s ∈ cache, ¬(s.dFrom = m ∧ s.dTo = ms.getLastD m)) →
        (fetch_with_cache cal fetcher start stop
          (fetch_with_cache cal fetcher start stop cache).cache).requests = [])) := by
  constructor
  · intro hm
    have h1 : fetch_with_cache cal fetcher start stop cache
        = ⟨standardize (cachedRecords start stop cache), cache, []⟩ := by
      simp [fetch_with_cache, hm]
    rw [h1]
    simp [fetch_with_cache, hm]
  · intro m ms hm
    set b := ms.getLastD m with hb
    have h1 : fetch_with_cache cal fetcher start stop cache
        = ⟨standardize (dedupFirst (cachedRecords start stop cache
              ++ dedupFirst (stubRecords cal m b))),
           cache.filter (fun s => !(s.dFrom == m && s.dTo == b))
             ++ [⟨m, b, stubRecords cal m b⟩], [(m, b)]⟩ := by
      have hb2 : ms.getLast?.getD m = b := by
        rw [hb]
        exact (List.getLastD_eq_getLast? m ms).symm
      simp [fetch_with_cache, hm, hempty, hb2]
    refine ⟨by rw [h1], stubRecords_ne_nil cal m b, stubRecords_val_none cal m b, ?_⟩
    intro hf
    have hfilter : cache.filter (fun s => !(s.dFrom == m && s.dTo == b)) = cache :=
      List.filter_eq_self.mpr (fun s hs => by simpa using not_and_or.mp (hf s hs))
    have hbounds : ∀ d ∈ missing_dates cal start stop cache, m ≤ d ∧ d ≤ b := by
      have hs := missing_dates_sorted cal start stop cache
      rw [hm] at hs
      intro d hd
      rw [hm] at hd
      exact pairwise_head_le_getLastD m ms hs d hd
    have hmiss2 : missing_dates cal start stop
        (cache ++ [⟨m, b, stubRecords cal m b⟩]) = [] := by
      unfold missing_dates
      rw [List.filter_eq_nil_iff]
      intro d hd
      suffices hin : d ∈ have_dates start stop (cache ++ [⟨m, b, stubRecords cal m b⟩]) by
        simp [hin]
      obtain ⟨⟨hd1, hd2⟩, hd3⟩ := (mem_want_dates cal start stop d).mp hd
      by_cases hhave : d ∈ have_dates start stop cache
      · obtain ⟨s, hs, hcond, r, hr, hre⟩ := (mem_have_dates start stop d cache).mp hhave
        exact (mem_have_dates start stop d _).mpr
          ⟨s, List.mem_append_left _ hs, hcond, r, hr, hre⟩
      · have hdm : d ∈ missing_dates cal start stop cache :=
          (mem_missing_dates cal start stop d cache).mpr ⟨hd, hhave⟩
        obtain ⟨hmd, hdb⟩ := hbounds d hdm
        have hdr : d ∈ dateRangeB cal m b := by
          unfold dateRangeB
          rw [List.mem_filter, mem_daysFromTo]
          exact ⟨⟨hmd, hdb⟩, hd3⟩
        refine (mem_have_dates start stop d _).mpr
          ⟨⟨m, b, stubRecords cal m b⟩,
            List.mem_append_right _ (List.mem_singleton.mpr rfl),
            ⟨show start ≤ b by omega, show m ≤ stop by omega⟩,
            ⟨d, none⟩, mem_stubRecords_of_range cal m b d hdr, rfl⟩
    rw [h1, hfilter]
    simp [fetch_with_cache, hmiss2]

/-- Witness for the amended C7: an always-empty fetcher over one week with an
empty cache (no name collision possible); the first run writes the stub for
`(0, 4)` and the identical second run fetches nothing. -/
theorem c7_stub_prevents_refetch_witness :
    (fetch_with_cache calDemo (fun _ _ => []) 0 6 []).cache
        = [⟨0, 4, stubRecords calDemo 0 4⟩] ∧
    stubRecords calDemo 0 4 ≠ [] ∧
    (∀ r ∈ stubRecords calDemo 0 4, r.val = none) ∧
    (fetch_with_cache calDemo (fun _ _ => []) 0 6
      (fetch_with_cache calDemo (fun _ _ => []) 0 6 []).cache).requests = [] := by
  obtain ⟨h0, h1⟩ := c7_stub_prevents_refetch calDemo (fun _ _ => []) 0 6 []
    (fun _ _ => rfl)
  obtain ⟨ha, hb, hc, hd⟩ := h1 0 [1, 2, 3, 4] (by decide)
  exact ⟨ha, hb, hc, hd (fun s hs => absurd hs (List.not_mem_nil s))⟩

/-- C1 counterexample: with days 0–4 requested and only day 2 cached, the
missing dates split into the maximal runs `(0,1)` and `(3,4)`, but
`_fetch_with_cache` issues the single spanning request `(0, 4)`, re-fetching
the cached interior day. -/
theorem c1_counterexample :
    missing_dates calDemo 0 4 [⟨2, 2, [⟨2, some 7⟩]⟩] = [0, 1, 3, 4] ∧
    contiguousRuns [0, 1, 3, 4] = [(0, 1), (3, 4)] ∧
    (fetch_with_cache calDemo (fun a b => [⟨a, some 1⟩, ⟨b, some 1⟩]) 0 4
      [⟨2, 2, [⟨2, some 7⟩]⟩]).requests = [(0, 4)] ∧
    [((0 : Int), (4 : Int))] ≠ [(0, 1), (3, 4)] := by decide

/-- C1 amended: gap detection computes the sorted missing set and issues a
single fetch request spanning `[min(missing), max(missing)]` (hence trivially
in ascending order), not one request per contiguous run; when nothing is
missing no request is issued. -/
theorem c1_single_span_request (cal : BusinessCalendar)
    (fetcher : Int → Int → List RawRecord) (start stop : Int) (cache : List Segment) :
    (missing_dates cal start stop cache = [] →
      (fetch_with_cache cal fetcher start stop cache).requests = []) ∧
    (∀ m ms, missing_dates cal start stop cache = m :: ms →
      (fetch_with_cache cal fetcher start stop cache).requests
          = [(m, ms.getLastD m)] ∧
      ∀ d ∈ missing_dates cal start stop cache, m ≤ d ∧ d ≤ ms.getLastD m) := by
  constructor
  · intro hm
    simp [fetch_with_cache, hm]
  · intro m ms hm
    constructor
    · simp [fetch_with_cache, hm]
    · have hs := missing_dates_sorted cal start stop cache
      rw [hm] at hs
      intro d hd
      rw [hm] at hd
      exact pairwise_head_le_getLastD m ms hs d hd

/-- Witness for the amended C1 on the counterexample scenario. -/
theorem c1_single_span_request_witness :
    (fetch_with_cache calDemo (fun a b => [⟨a, some 1⟩, ⟨b, some 1⟩]) 0 4
        [⟨2, 2, [⟨2, some 7⟩]⟩]).requests = [(0, 4)] ∧
    ∀ d ∈ missing_dates calDemo 0 4 [⟨2, 2, [⟨2, some 7⟩]⟩],
      (0 : Int) ≤ d ∧ d ≤ [(1 : Int), 3, 4].getLastD 0 := by
  have h := (c1_single_span_request calDemo (fun a b => [⟨a, some 1⟩, ⟨b, some 1⟩])
    0 4 [⟨2, 2, [⟨2, some 7⟩]⟩]).2 0 [1, 3, 4] (by decide)
  exact ⟨h.1, h.2⟩

/-- C2 counterexample: the usd fetcher itself computes and carries
`PUBLICATION_TS` and `EFFECTIVE_DATE` on every returned record (here for
`DATE = 4`, a Friday, `EFFECTIVE_DATE = apply_lag(4, 1) = 7`), and the engine
standardization copies whatever `EFFECTIVE_DATE` a record carries into
`KEY_DATE` instead of computing it from `DATE`: a record carrying
`EFFECTIVE_DATE = 100` is keyed at 100, not at `apply_lag(4, 1, cal) = 7`. -/
theorem c2_counterexample :
    get_usd_rub calDemo [(4, 80)] = [⟨4, 80, 6690, 7⟩] ∧
    apply_lag 4 1 calDemo = 7 ∧
    standardizeUsd ⟨4, 80, 6690, 100⟩ = (100, 80, 6690) ∧
    (100 : Int) ≠ apply_lag 4 1 calDemo := by decide

/-- C2 amended: every record returned by `get_usd_rub` carries
`PUBLICATION_TS = DATE + 15:30` and `EFFECTIVE_DATE = apply_lag(DATE, 1, cal)`
computed inside the fetcher, and the engine merely keys the standardized row
by that carried effective date. -/
theorem c2_fetcher_computes_effective (cal : BusinessCalendar)
    (raw : List (Int × Int)) :
    ∀ r ∈ get_usd_rub cal raw,
      r.PUBLICATION_TS = r.DATE * 1440 + 930 ∧
      r.EFFECTIVE_DATE = apply_lag r.DATE 1 cal ∧
      (standardizeUsd r).1 = r.EFFECTIVE_DATE := by
  intro r hr
  unfold get_usd_rub at hr
  rw [(List.perm_insertionSort usdDateDesc _).mem_iff, List.mem_map] at hr
  obtain ⟨p, _, rfl⟩ := hr
  exact ⟨rfl, rfl, rfl⟩

/-- Witness for the amended C2 at the record fetched for `DATE = 4`. -/
theorem c2_fetcher_computes_effective_witness :
    (⟨4, 80, 6690, 7⟩ : UsdRecord).PUBLICATION_TS
        = (⟨4, 80, 6690, 7⟩ : UsdRecord).DATE * 1440 + 930 ∧
    (⟨4, 80, 6690, 7⟩ : UsdRecord).EFFECTIVE_DATE
        = apply_lag (⟨4, 80, 6690, 7⟩ : UsdRecord).DATE 1 calDemo ∧
    (standardizeUsd ⟨4, 80, 6690, 7⟩).1
        = (⟨4, 80, 6690, 7⟩ : UsdRecord).EFFECTIVE_DATE :=
  c2_fetcher_computes_effective calDemo [(4, 80)] ⟨4, 80, 6690, 7⟩ (by decide)

/-- C9 counterexample: with two sources whose caches are empty, the first
source's fetcher raising aborts the entire merge: the result is the
propagated error, no panel is produced from the second (healthy) source and
no per-source failure report exists. -/
theorem c9_counterexample :
    DataMerger.mergeE
      [⟨calDemo, fun _ _ => .error ()⟩, ⟨calDemo, fun a _ => .ok [⟨a, some 2⟩]⟩]
      [[], []] 0 2 true true = .error () := rfl

/-- C9 amended: per-source fetch errors are not caught anywhere: whenever a
source with missing dates has a raising fetcher, `merge` aborts with that
error regardless of the remaining sources. -/
theorem c9_failure_aborts_merge (cal : BusinessCalendar)
    (f : Int → Int → Except Unit (List RawRecord)) (rest : List SourceSpecE)
    (c0 : List Segment) (caches : List (List Segment)) (start stop : Int)
    (fc ff : Bool)
    (hmiss : missing_dates cal start stop c0 ≠ [])
    (hfail : ∀ a b : Int, f a b = .error ()) :
    DataMerger.mergeE (⟨cal, f⟩ :: rest) (c0 :: caches) start stop fc ff
      = .error () := by
  obtain ⟨m, ms, hm⟩ : ∃ m ms, missing_dates cal start stop c0 = m :: ms := by
    cases hc : missing_dates cal start stop c0 with
    | nil => exact absurd hc hmiss
    | cons m ms => exact ⟨m, ms, rfl⟩
  have h1 : fetch_with_cacheE cal f start stop c0 = .error () := by
    simp [fetch_with_cacheE, hm, hfail]
  have h2 : runSourcesE (⟨cal, f⟩ :: rest) (c0 :: caches) start stop = .error () := by
    unfold runSourcesE
    simp only [List.headD_cons, h1]
  unfold DataMerger.mergeE
  rw [h2]

/-- Witness for the amended C9: a single raising source with an empty cache. -/
theorem c9_failure_aborts_merge_witness :
    DataMerger.mergeE [⟨calDemo, fun _ _ => .error ()⟩] [[]] 0 2 true true
      = .error () :=
  c9_failure_aborts_merge calDemo (fun _ _ => .error ()) [] [] [] 0 2 true true
    (by decide) (fun _ _ => rfl)

theorem map_key_ffillRows : ∀ (prev : List (Option Int)) (rows : List PRow),
    (ffillRows prev rows).map (fun r => r.key) = rows.map (fun r => r.key) := by
  intro prev rows
  induction rows generalizing prev with
  | nil => rfl
  | cons r rs ih => simp [ffillRows, ih]

theorem map_key_reindexCal (start stop : Int) (w : Nat) (rows : List PRow) :
    (reindexCal start stop w rows).map (fun r => r.key) = daysFromTo start stop := by
  unfold reindexCal
  rw [List.map_map]
  have h : ∀ d ∈ daysFromTo start stop,
      ((fun r => r.key) ∘ (fun d =>
        match rows.find? (fun r => r.key == d) with
        | some r => (⟨d, r.vals⟩ : PRow)
        | none => (⟨d, List.replicate w none⟩ : PRow))) d = id d := by
    intro d _
    simp only [Function.comp]
    cases rows.find? (fun r => r.key == d) <;> rfl
  rw [List.map_congr_left h, List.map_id]

/-- C10: with `fill_calendar` enabled, `merge` returns exactly one row per
calendar day of `[start, stop]` in order, and any merged row whose `KEY_DATE`
falls outside the range (for example an effective date lag-rolled past the
end) is dropped rather than appended. -/
theorem c10_fill_calendar_keys (sources : List SourceSpec)
    (caches : List (List Segment)) (start stop : Int) (ff : Bool) :
    ((DataMerger.merge sources caches start stop true ff).panel).map (fun r => r.key)
        = daysFromTo start stop ∧
    ∀ r ∈ (DataMerger.merge sources caches start stop true ff).panel,
      start ≤ r.key ∧ r.key ≤ stop := by
  have hpanel : (DataMerger.merge sources caches start stop true ff).panel
      = (if ff then
          ffillRows (List.replicate sources.length none)
            (reindexCal start stop sources.length
              (DataMerger.mergedSorted (runSources sources caches start stop).1))
         else
          reindexCal start stop sources.length
            (DataMerger.mergedSorted (runSources sources caches start stop).1)) := by
    unfold DataMerger.merge
    cases ff <;> simp
  have hkeys : ((DataMerger.merge sources caches start stop true ff).panel).map
      (fun r => r.key) = daysFromTo start stop := by
    rw [hpanel]
    cases ff
    · simp only [Bool.false_eq_true, if_false, map_key_reindexCal]
    · simp only [if_true, map_key_ffillRows, map_key_reindexCal]
  refine ⟨hkeys, ?_⟩
  intro r hr
  have hmem : r.key ∈ daysFromTo start stop := by
    rw [← hkeys]
    exact List.mem_map_of_mem _ hr
  exact (mem_daysFromTo start stop r.key).mp hmem

/-- Witness for C10: one source over four days; the row for day 1 is inside
the requested range. -/
theorem c10_fill_calendar_keys_witness :
    ((DataMerger.merge [⟨calDemo, fun a _ => [⟨a, some 3⟩]⟩] [[]] 0 3 true
        true).panel).map (fun r => r.key) = daysFromTo 0 3 ∧
    ((0 : Int) ≤ (⟨1, [some 3]⟩ : PRow).key ∧ (⟨1, [some 3]⟩ : PRow).key ≤ 3) := by
  obtain ⟨h1, h2⟩ := c10_fill_calendar_keys [⟨calDemo, fun a _ => [⟨a, some 3⟩]⟩]
    [[]] 0 3 true
  exact ⟨h1, h2 ⟨1, [some 3]⟩ (by decide)⟩

theorem joinGroup_key (w : Nat) (left : List PRow) (right : List SrcRow) (k : Int) :
    ∀ row ∈ joinGroup w left right k, row.key = k := by
  intro row hrow
  simp only [joinGroup] at hrow
  split at hrow
  · obtain ⟨r, _, rfl⟩ := List.mem_map.mp hrow
    rfl
  · split at hrow
    · obtain ⟨l, _, rfl⟩ := List.mem_map.mp hrow
      rfl
    · obtain ⟨l, _, hl⟩ := List.mem_flatMap.mp hrow
      obtain ⟨r, _, rfl⟩ := List.mem_map.mp hl
      rfl

theorem mem_keys_joinGroup (w : Nat) (left : List PRow) (right : List SrcRow)
    (k : Int)
    (h : k ∈ left.map (fun r => r.key) ∨ k ∈ right.map (fun r => r.key)) :
    k ∈ (joinGroup w left right k).map (fun r => r.key) := by
  have hcase : left.filter (fun r => r.key == k) ≠ []
      ∨ right.filter (fun r => r.key == k) ≠ [] := by
    rcases h with h | h
    · obtain ⟨l, hl, hk⟩ := List.mem_map.mp h
      have : l ∈ left.filter (fun r => r.key == k) :=
        List.mem_filter.mpr ⟨hl, by simp [hk]⟩
      left
      intro hc
      rw [hc] at this
      cases this
    · obtain ⟨r, hr, hk⟩ := List.mem_map.mp h
      have : r ∈ right.filter (fun r => r.key == k) :=
        List.mem_filter.mpr ⟨hr, by simp [hk]⟩
      right
      intro hc
      rw [hc] at this
      cases this
  simp only [joinGroup]
  by_cases h1 : (left.filter (fun r => r.key == k)).isEmpty
  · rw [if_pos h1]
    have hrm : right.filter (fun r => r.key == k) ≠ [] := by
      rcases hcase with hc | hc
      · exact absurd (List.isEmpty_iff.mp h1) hc
      · exact hc
    obtain ⟨r, hr⟩ := List.exists_mem_of_ne_nil _ hrm
    exact List.mem_map.mpr ⟨⟨k, List.replicate w none ++ [r.val]⟩,
      List.mem_map.mpr ⟨r, hr, rfl⟩, rfl⟩
  · rw [if_neg h1]
    have hlm : left.filter (fun r => r.key == k) ≠ [] := by
      intro hc
      exact h1 (by rw [hc]; rfl)
    obtain ⟨l, hl⟩ := List.exists_mem_of_ne_nil _ hlm
    by_cases h2 : (right.filter (fun r => r.key == k)).isEmpty
    · rw [if_pos h2]
      exact List.mem_map.mpr ⟨⟨k, l.vals ++ [none]⟩, List.mem_map.mpr ⟨l, hl, rfl⟩, rfl⟩
    · rw [if_neg h2]
      have hrm : right.filter (fun r => r.key == k) ≠ [] := by
        intro hc
        exact h2 (by rw [hc]; rfl)
      obtain ⟨r, hr⟩ := List.exists_mem_of_ne_nil _ hrm
      exact List.mem_map.mpr ⟨⟨k, l.vals ++ [r.val]⟩,
        List.mem_flatMap.mpr ⟨l, hl, List.mem_map.mpr ⟨r, hr, rfl⟩⟩, rfl⟩

theorem mem_keys_outerJoin (w : Nat) (left : List PRow) (right : List SrcRow)
    (k0 : Int) :
    k0 ∈ (outerJoin w left right).map (fun r => r.key) ↔
      k0 ∈ left.map (fun r => r.key) ∨ k0 ∈ right.map (fun r => r.key) := by
  unfold outerJoin
  constructor
  · intro h
    obtain ⟨row, hrow, rfl⟩ := List.mem_map.mp h
    obtain ⟨k, hk, hrowk⟩ := List.mem_flatMap.mp hrow
    rw [joinGroup_key w left right k row hrowk]
    have hkin := (mem_dedupFirst k _).mp hk
    rw [(List.perm_insertionSort _ _).mem_iff] at hkin
    exact List.mem_append.mp hkin
  · intro h
    have hks : k0 ∈ dedupFirst (List.insertionSort (fun a b : Int => a ≤ b)
        (left.map (fun r => r.key) ++ right.map (fun r => r.key))) := by
      rw [mem_dedupFirst, (List.perm_insertionSort _ _).mem_iff]
      exact List.mem_append.mpr h
    have hgrp := mem_keys_joinGroup w left right k0 h
    obtain ⟨row, hrow, hrk⟩ := List.mem_map.mp hgrp
    exact List.mem_map.mpr ⟨row, List.mem_flatMap.mpr ⟨k0, hks, hrow⟩, hrk⟩

theorem mem_keys_joinFoldl :
    ∀ (fs : List (List SrcRow)) (acc : List PRow) (w : Nat) (k : Int),
      k ∈ ((fs.foldl (fun acc g => (outerJoin acc.2 acc.1 g, acc.2 + 1))
            (acc, w)).1.map (fun r => r.key)) ↔
        k ∈ acc.map (fun r => r.key) ∨ ∃ f ∈ fs, k ∈ f.map (fun r => r.key) := by
  intro fs
  induction fs with
  | nil =>
    intro acc w k
    simp
  | cons g gs ih =>
    intro acc w k
    simp only [List.foldl_cons]
    rw [ih, mem_keys_outerJoin]
    simp only [List.mem_cons]
    constructor
    · rintro ((h | h) | ⟨f, hf, h⟩)
      · exact .inl h
      · exact .inr ⟨g, .inl rfl, h⟩
      · exact .inr ⟨f, .inr hf, h⟩
    · rintro (h | ⟨f, (rfl | hf), h⟩)
      · exact .inl (.inl h)
      · exact .inl (.inr h)
      · exact .inr ⟨f, hf, h⟩

theorem mem_keys_joinFrames (frames : List (List SrcRow)) (k : Int) :
    k ∈ (joinFrames frames).map (fun r => r.key) ↔
      ∃ f ∈ frames, k ∈ f.map (fun r => r.key) := by
  cases frames with
  | nil => simp [joinFrames]
  | cons f fs =>
    unfold joinFrames
    rw [mem_keys_joinFoldl]
    have hsf : (srcFrame f).map (fun r => r.key) = f.map (fun r => r.key) := by
      unfold srcFrame
      rw [List.map_map]
      rfl
    rw [hsf]
    simp only [List.mem_cons]
    constructor
    · rintro (h | ⟨g, hg, h⟩)
      · exact ⟨f, .inl rfl, h⟩
      · exact ⟨g, .inr hg, h⟩
    · rintro ⟨g, (rfl | hg), h⟩
      · exact .inl h
      · exact .inr ⟨g, hg, h⟩

theorem sortRows_sorted (l : List PRow) : List.Sorted rowLe (sortRows l) :=
  List.sorted_insertionSort rowLe l

theorem dedupKeyKeepLast_sublist : ∀ l : List PRow, (dedupKeyKeepLast l).Sublist l := by
  intro l
  induction l with
  | nil => simp [dedupKeyKeepLast]
  | cons r rs ih =>
    unfold dedupKeyKeepLast
    split
    · exact ih.cons r
    · exact ih.cons₂ r

theorem mem_keys_dedupKeyKeepLast : ∀ (l : List PRow) (k : Int),
    k ∈ (dedupKeyKeepLast l).map (fun r => r.key) ↔ k ∈ l.map (fun r => r.key) := by
  intro l
  induction l with
  | nil => intro k; simp [dedupKeyKeepLast]
  | cons r rs ih =>
    intro k
    unfold dedupKeyKeepLast
    split
    · next hany =>
      rw [ih]
      simp only [List.map_cons, List.mem_cons]
      constructor
      · exact .inr
      · rintro (rfl | h)
        · rw [List.any_eq_true] at hany
          obtain ⟨x, hx, hxk⟩ := hany
          rw [beq_iff_eq] at hxk
          exact List.mem_map.mpr ⟨x, hx, hxk⟩
        · exact h
    · simp only [List.map_cons, List.mem_cons]
      rw [ih]

theorem nodup_keys_dedupKeyKeepLast : ∀ l : List PRow,
    ((dedupKeyKeepLast l).map (fun r => r.key)).Nodup := by
  intro l
  induction l with
  | nil => simp [dedupKeyKeepLast]
  | cons r rs ih =>
    unfold dedupKeyKeepLast
    split
    · exact ih
    · next hany =>
      simp only [List.map_cons, List.nodup_cons]
      refine ⟨?_, ih⟩
      intro hk
      rw [mem_keys_dedupKeyKeepLast] at hk
      obtain ⟨x, hx, hxk⟩ := List.mem_map.mp hk
      exact hany (List.any_eq_true.mpr ⟨x, hx, beq_iff_eq.mpr hxk⟩)

theorem mergedSorted_strict (frames : List (List SrcRow)) :
    List.Pairwise (fun a b : PRow => a.key < b.key)
      (DataMerger.mergedSorted frames) := by
  unfold DataMerger.mergedSorted
  have hsorted : List.Pairwise rowLe (dedupKeyKeepLast (sortRows (joinFrames frames))) :=
    List.Pairwise.sublist (dedupKeyKeepLast_sublist _) (sortRows_sorted _)
  have hnodup := nodup_keys_dedupKeyKeepLast (sortRows (joinFrames frames))
  have hne0 : List.Pairwise (fun a b : Int => a ≠ b)
      ((dedupKeyKeepLast (sortRows (joinFrames frames))).map (fun r => r.key)) := hnodup
  have hne := List.pairwise_map.mp hne0
  exact (hsorted.and hne).imp (fun h => lt_of_le_of_ne h.1 h.2)

theorem mem_keys_mergedSorted (frames : List (List SrcRow)) (k : Int) :
    k ∈ (DataMerger.mergedSorted frames).map (fun r => r.key) ↔
      ∃ f ∈ frames, k ∈ f.map (fun r => r.key) := by
  unfold DataMerger.mergedSorted
  rw [mem_keys_dedupKeyKeepLast]
  have hperm := ((List.perm_insertionSort rowLe (joinFrames frames)).map
    (fun r => r.key)).mem_iff (a := k)
  unfold sortRows
  rw [hperm]
  exact mem_keys_joinFrames frames k

/-- C5: in the merged result before calendar expansion every `KEY_DATE`
present in any source's standardized frame (its effective dates) appears
exactly once, and the rows are in strictly increasing `KEY_DATE` order. -/
theorem c5_outer_join_completeness (sources : List SourceSpec)
    (caches : List (List Segment)) (start stop : Int) :
    List.Pairwise (fun a b : PRow => a.key < b.key)
      (DataMerger.mergedSorted (runSources sources caches start stop).1) ∧
    ∀ k : Int,
      ((∃ f ∈ (runSources sources caches start stop).1, k ∈ f.map (fun r => r.key)) ↔
        ((DataMerger.mergedSorted (runSources sources caches start stop).1).map
          (fun r => r.key)).count k = 1) := by
  refine ⟨mergedSorted_strict _, ?_⟩
  intro k
  have hnodup : ((DataMerger.mergedSorted
      (runSources sources caches start stop).1).map (fun r => r.key)).Nodup := by
    unfold DataMerger.mergedSorted
    exact nodup_keys_dedupKeyKeepLast _
  constructor
  · intro h
    exact List.count_eq_one_of_mem hnodup ((mem_keys_mergedSorted _ k).mpr h)
  · intro h
    have hmem : k ∈ (DataMerger.mergedSorted
        (runSources sources caches start stop).1).map (fun r => r.key) := by
      rw [← List.count_pos_iff]
      omega
    exact (mem_keys_mergedSorted _ k).mp hmem

/-- Witness for C5: two sources with overlapping effective dates; key 0 comes
from both frames and appears exactly once in the merged result. -/
theorem c5_outer_join_completeness_witness :
    List.Pairwise (fun a b : PRow => a.key < b.key)
      (DataMerger.mergedSorted
        (runSources [⟨calDemo, fun a _ => [⟨a, some 1⟩]⟩,
          ⟨calDemo, fun a _ => [⟨a, some 2⟩]⟩] [[], []] 0 2).1) ∧
    ((DataMerger.mergedSorted
        (runSources [⟨calDemo, fun a _ => [⟨a, some 1⟩]⟩,
          ⟨calDemo, fun a _ => [⟨a, some 2⟩]⟩] [[], []] 0 2).1).map
      (fun r => r.key)).count 0 = 1 := by
  obtain ⟨h1, h2⟩ := c5_outer_join_completeness
    [⟨calDemo, fun a _ => [⟨a, some 1⟩]⟩, ⟨calDemo, fun a _ => [⟨a, some 2⟩]⟩]
    [[], []] 0 2
  exact ⟨h1, (h2 0).mp (by decide)⟩

theorem vals_length_joinGroup (w : Nat) (left : List PRow) (right : List SrcRow)
    (k : Int) (hw : ∀ l ∈ left, l.vals.length = w) :
    ∀ row ∈ joinGroup w left right k, row.vals.length = w + 1 := by
  intro row hrow
  simp only [joinGroup] at hrow
  split at hrow
  · obtain ⟨r, _, rfl⟩ := List.mem_map.mp hrow
    simp
  · split at hrow
    · obtain ⟨l, hl, rfl⟩ := List.mem_map.mp hrow
      have := hw l (List.mem_filter.mp hl).1
      simp [this]
    · obtain ⟨l, hl, hmem⟩ := List.mem_flatMap.mp hrow
      obtain ⟨r, _, rfl⟩ := List.mem_map.mp hmem
      have := hw l (List.mem_filter.mp hl).1
      simp [this]

theorem vals_length_outerJoin (w : Nat) (left : List PRow) (right : List SrcRow)
    (hw : ∀ l ∈ left, l.vals.length = w) :
    ∀ row ∈ outerJoin w left right, row.vals.length = w + 1 := by
  intro row hrow
  unfold outerJoin at hrow
  obtain ⟨k, _, hk⟩ := List.mem_flatMap.mp hrow
  exact vals_length_joinGroup w left right k hw row hk

theorem vals_length_joinFoldl :
    ∀ (fs : List (List SrcRow)) (acc : List PRow) (w : Nat),
      (∀ r ∈ acc, r.vals.length = w) →
      ∀ row ∈ (fs.foldl (fun acc g => (outerJoin acc.2 acc.1 g, acc.2 + 1))
          (acc, w)).1,
        row.vals.length = w + fs.length := by
  intro fs
  induction fs with
  | nil =>
    intro acc w hw row hrow
    simpa using hw row hrow
  | cons g gs ih =>
    intro acc w hw row hrow
    simp only [List.foldl_cons] at hrow
    have h := ih (outerJoin w acc g) (w + 1) (vals_length_outerJoin w acc g hw) row hrow
    simp only [List.length_cons]
    omega

theorem vals_length_joinFrames (frames : List (List SrcRow)) :
    ∀ row ∈ joinFrames frames, row.vals.length = frames.length := by
  cases frames with
  | nil =>
    intro row hrow
    cases hrow
  | cons f fs =>
    intro row hrow
    unfold joinFrames at hrow
    have hsf : ∀ r ∈ srcFrame f, r.vals.length = 1 := by
      intro r hr
      obtain ⟨x, _, rfl⟩ := List.mem_map.mp hr
      rfl
    have h := vals_length_joinFoldl fs (srcFrame f) 1 hsf row hrow
    simp only [List.length_cons]
    omega

theorem vals_length_mergedSorted (frames : List (List SrcRow)) :
    ∀ row ∈ DataMerger.mergedSorted frames, row.vals.length = frames.length := by
  intro row hrow
  unfold DataMerger.mergedSorted at hrow
  have h2 : row ∈ sortRows (joinFrames frames) :=
    (dedupKeyKeepLast_sublist _).subset hrow
  have h3 : row ∈ joinFrames frames :=
    (List.perm_insertionSort rowLe (joinFrames frames)).mem_iff.mp h2
  exact vals_length_joinFrames frames row h3

theorem vals_length_reindexCal (start stop : Int) (w : Nat) (rows : List PRow)
    (hw : ∀ r ∈ rows, r.vals.length = w) :
    ∀ row ∈ reindexCal start stop w rows, row.vals.length = w := by
  intro row hrow
  unfold reindexCal at hrow
  obtain ⟨d, _, hrow⟩ := List.mem_map.mp hrow
  cases hfind : rows.find? (fun r => r.key == d) with
  | none =>
    rw [hfind] at hrow
    rw [← hrow]
    simp
  | some r =>
    rw [hfind] at hrow
    rw [← hrow]
    exact hw r (List.mem_of_find?_eq_some hfind)

theorem runSources_frames_length :
    ∀ (sources : List SourceSpec) (caches : List (List Segment)) (start stop : Int),
      (runSources sources caches start stop).1.length = sources.length := by
  intro sources
  induction sources with
  | nil =>
    intro caches start stop
    rfl
  | cons s ss ih =>
    intro caches start stop
    simp [runSources, ih]

theorem vals_length_merge_fill (sources : List SourceSpec)
    (caches : List (List Segment)) (start stop : Int) :
    ∀ r ∈ (DataMerger.merge sources caches start stop true false).panel,
      r.vals.length = sources.length := by
  have hpanel : (DataMerger.merge sources caches start stop true false).panel
      = reindexCal start stop sources.length
          (DataMerger.mergedSorted (runSources sources caches start stop).1) := by
    unfold DataMerger.merge
    simp
  rw [hpanel]
  refine vals_length_reindexCal start stop _ _ ?_
  intro x hx
  rw [vals_length_mergedSorted _ x hx, runSources_frames_length]

/-- Column `j` of a panel, as pandas would slice it (absent slots read as
null). -/
def colAt (j : Nat) (rows : List PRow) : List (Option Int) :=
  rows.map (fun r => r.vals.getD j none)

/-- `Series.ffill()` on a single column with running last-seen value `p`. -/
def ffillCol (p : Option Int) : List (Option Int) → List (Option Int)
  | [] => []
  | c :: cs =>
    (match c with | some v => some v | none => p)
      :: ffillCol (match c with | some v => some v | none => p) cs

theorem getD_ffillStep (prev cur : List (Option Int)) (j : Nat)
    (hlen : cur.length = prev.length) :
    (ffillStep prev cur).getD j none
      = match cur.getD j none with
        | some v => some v
        | none => prev.getD j none := by
  unfold ffillStep
  by_cases hj : j < cur.length
  · have hp : j < prev.length := by omega
    rw [List.getD_eq_getElem?_getD, List.getElem?_zipWith,
      List.getElem?_eq_getElem hp, List.getElem?_eq_getElem hj,
      List.getD_eq_getElem?_getD, List.getElem?_eq_getElem hj,
      List.getD_eq_getElem?_getD, List.getElem?_eq_getElem hp]
    cases cur[j] <;> rfl
  · have hp : ¬ j < prev.length := by omega
    have hz : ¬ j < (List.zipWith
        (fun p c => match c with | some v => some v | none => p) prev cur).length := by
      rw [List.length_zipWith]
      omega
    rw [List.getD_eq_getElem?_getD, List.getElem?_eq_none (by omega),
      List.getD_eq_getElem?_getD, List.getElem?_eq_none (by omega),
      List.getD_eq_getElem?_getD, List.getElem?_eq_none (by omega)]
    rfl

theorem length_ffillStep (prev cur : List (Option Int)) :
    (ffillStep prev cur).length = min prev.length cur.length := by
  unfold ffillStep
  exact List.length_zipWith _ _ _

theorem colAt_ffillRows (j : Nat) :
    ∀ (rows : List PRow) (prev : List (Option Int)),
      (∀ r ∈ rows, r.vals.length = prev.length) →
      colAt j (ffillRows prev rows) = ffillCol (prev.getD j none) (colAt j rows) := by
  intro rows
  induction rows with
  | nil =>
    intro prev _
    rfl
  | cons r rs ih =>
    intro prev hw
    have hr : r.vals.length = prev.length := hw r (List.mem_cons_self r rs)
    have hstep := getD_ffillStep prev r.vals j hr
    have hlen2 : (ffillStep prev r.vals).length = prev.length := by
      rw [length_ffillStep]
      omega
    have ihs := ih (ffillStep prev r.vals)
      (fun x hx => by rw [hlen2]; exact hw x (List.mem_cons_of_mem r hx))
    simp only [ffillRows, colAt, List.map_cons, ffillCol]
    rw [show List.map (fun r => r.vals.getD j none) (ffillRows (ffillStep prev r.vals) rs)
        = colAt j (ffillRows (ffillStep prev r.vals) rs) from rfl, ihs, hstep]
    rfl

theorem ffillCol_stays :
    ∀ (col : List (Option Int)) (p : Option Int) (i : Nat),
      (∀ j2 : Nat, j2 ≤ i → col[j2]? = some none) →
      (ffillCol p col)[i]? = some p := by
  intro col
  induction col with
  | nil =>
    intro p i h
    have := h 0 (Nat.zero_le i)
    simp at this
  | cons c cs ih =>
    intro p i h
    have hc : c = none := by
      have := h 0 (Nat.zero_le i)
      simpa using this
    subst hc
    simp only [ffillCol]
    cases i with
    | zero => simp
    | succ i2 =>
      rw [List.getElem?_cons_succ]
      exact ih p i2 (fun j2 hj2 => by
        have := h (j2 + 1) (by omega)
        simpa using this)

theorem ffillCol_carries :
    ∀ (col : List (Option Int)) (p : Option Int) (i1 i : Nat) (v : Int),
      i1 ≤ i → col[i1]? = some (some v) →
      (∀ j2 : Nat, i1 < j2 → j2 ≤ i → col[j2]? = some none) →
      (ffillCol p col)[i]? = some (some v) := by
  intro col
  induction col with
  | nil =>
    intro p i1 i v h1 h2 h3
    simp at h2
  | cons c cs ih =>
    intro p i1 i v h1 h2 h3
    match i1, i with
    | 0, 0 =>
      have hc : c = some v := by simpa using h2
      subst hc
      simp [ffillCol]
    | 0, i + 1 =>
      have hc : c = some v := by simpa using h2
      subst hc
      simp only [ffillCol]
      rw [List.getElem?_cons_succ]
      exact ffillCol_stays cs (some v) i (fun j2 hj2 => by
        have := h3 (j2 + 1) (by omega) (by omega)
        simpa using this)
    | i1 + 1, 0 => omega
    | i1 + 1, i + 1 =>
      have h2b : cs[i1]? = some (some v) := by simpa using h2
      simp only [ffillCol]
      rw [List.getElem?_cons_succ]
      exact ih _ i1 i v (by omega) h2b (fun j2 ha hb => by
        have := h3 (j2 + 1) (by omega) (by omega)
        simpa using this)

theorem merge_ffill_panel (sources : List SourceSpec) (caches : List (List Segment))
    (start stop : Int) :
    (DataMerger.merge sources caches start stop true true).panel
      = ffillRows (List.replicate sources.length none)
          ((DataMerger.merge sources caches start stop true false).panel) := by
  unfold DataMerger.merge
  simp

theorem getD_replicate_none (w j : Nat) :
    (List.replicate w (none : Option Int)).getD j none = none := by
  rw [List.getD_eq_getElem?_getD, List.getElem?_replicate]
  split <;> rfl

theorem colAt_merge_tt (sources : List SourceSpec) (caches : List (List Segment))
    (start stop : Int) (j : Nat) :
    colAt j ((DataMerger.merge sources caches start stop true true).panel)
      = ffillCol none
          (colAt j ((DataMerger.merge sources caches start stop true false).panel)) := by
  have hw : ∀ r ∈ (DataMerger.merge sources caches start stop true false).panel,
      r.vals.length = (List.replicate sources.length (none : Option Int)).length := by
    intro r hr
    rw [List.length_replicate]
    exact vals_length_merge_fill sources caches start stop r hr
  rw [merge_ffill_panel, colAt_ffillRows j _ _ hw, getD_replicate_none]

/-- C8: with `forward_fill` enabled on the calendar-expanded panel, a column
holding value `v` on day `d1` (row index `d1 - start`) and no value on any day
strictly between `d1` and `d2` takes value `v` on every such day after the
fill; and values are never propagated backward: a column null on every row up
to an index stays null there. -/
theorem c8_forward_fill (sources : List SourceSpec) (caches : List (List Segment))
    (start stop : Int) (j : Nat) :
    (∀ d1 d2 v : Int, start ≤ d1 → d1 < d2 →
      (colAt j ((DataMerger.merge sources caches start stop true
          false).panel))[(d1 - start).toNat]? = some (some v) →
      (∀ d : Int, d1 < d → d < d2 →
        (colAt j ((DataMerger.merge sources caches start stop true
            false).panel))[(d - start).toNat]? = some none) →
      ∀ d : Int, d1 < d → d < d2 →
        (colAt j ((DataMerger.merge sources caches start stop true
            true).panel))[(d - start).toNat]? = some (some v)) ∧
    (∀ i : Nat,
      (∀ j2 : Nat, j2 ≤ i →
        (colAt j ((DataMerger.merge sources caches start stop true
            false).panel))[j2]? = some none) →
      (colAt j ((DataMerger.merge sources caches start stop true
          true).panel))[i]? = some none) := by
  constructor
  · intro d1 d2 v hd1 hdd hv hmid d ha hb
    rw [colAt_merge_tt]
    refine ffillCol_carries _ none (d1 - start).toNat (d - start).toNat v
      (by omega) hv ?_
    intro j2 hj2a hj2b
    have hd : ((start + (j2 : Int)) - start).toNat = j2 := by omega
    have hm := hmid (start + (j2 : Int)) (by omega) (by omega)
    rw [hd] at hm
    exact hm
  · intro i h
    rw [colAt_merge_tt]
    exact ffillCol_stays _ none i h

/-- Two demonstration sources for the forward-fill witness: the first has a
value on day 0 only, the second has no data at all (stub). -/
def sourcesFfillDemo : List SourceSpec :=
  [⟨calDemo, fun _ _ => [⟨0, some 9⟩]⟩, ⟨calDemo, fun _ _ => []⟩]

/-- Witness for C8: day 1 inherits the value 9 observed on day 0; the no-data
column stays null. -/
theorem c8_forward_fill_witness :
    (colAt 0 ((DataMerger.merge sourcesFfillDemo [[], []] 0 3 true
        true).panel))[((1 : Int) - 0).toNat]? = some (some 9) ∧
    (colAt 1 ((DataMerger.merge sourcesFfillDemo [[], []] 0 3 true
        true).panel))[1]? = some none := by
  obtain ⟨hA, _⟩ := c8_forward_fill sourcesFfillDemo [[], []] 0 3 0
  obtain ⟨_, hB⟩ := c8_forward_fill sourcesFfillDemo [[], []] 0 3 1
  refine ⟨hA 0 3 9 (by decide) (by decide) (by decide) ?_ 1 (by decide) (by decide),
    hB 1 ?_⟩
  · intro d h1 h2
    have hd : d = 1 ∨ d = 2 := by omega
    rcases hd with rfl | rfl <;> decide
  · intro j2 hj
    have hj2 : j2 = 0 ∨ j2 = 1 := by omega
    rcases hj2 with rfl | rfl <;> decide

theorem missing_dates_nil_of_covered (cal : BusinessCalendar) (start stop : Int)
    (cache : List Segment)
    (hcov : ∀ d ∈ want_dates cal start stop, d ∈ have_dates start stop cache) :
    missing_dates cal start stop cache = [] := by
  unfold missing_dates
  rw [List.filter_eq_nil_iff]
  intro d hd
  simp [hcov d hd]

theorem fetch_with_cache_no_missing (cal : BusinessCalendar)
    (fetcher : Int → Int → List RawRecord) (start stop : Int) (cache : List Segment)
    (hm : missing_dates cal start stop cache = []) :
    fetch_with_cache cal fetcher start stop cache
      = ⟨standardize (cachedRecords start stop cache), cache, []⟩ := by
  simp [fetch_with_cache, hm]

/-- No segment already in the cache carries the file name `{a}_{b}` of the
span this request would fetch, so the parquet write destroys no records. -/
def freshSpan (cal : BusinessCalendar) (start stop : Int) (cache : List Segment) : Bool :=
  match missing_dates cal start stop cache with
  | [] => true
  | m :: ms => cache.all (fun s => !(s.dFrom == m && s.dTo == ms.getLastD m))

theorem getD_zero_eq_headD {α : Type} (l : List α) (d : α) : l.getD 0 d = l.headD d := by
  cases l <;> rfl

theorem getD_succ_eq_tail_getD {α : Type} (l : List α) (i : Nat) (d : α) :
    l.getD (i + 1) d = l.tail.getD i d := by
  cases l <;> rfl

theorem cachedRecords_append_segment (start stop : Int) (cache : List Segment)
    (s : Segment) (hrel : (decide (start ≤ s.dTo) && decide (s.dFrom ≤ stop)) = true) :
    cachedRecords start stop (cache ++ [s])
      = dedupFirst ((relevantSegments start stop cache).flatMap
          (fun s => s.recs) ++ s.recs) := by
  unfold cachedRecords relevantSegments
  rw [List.filter_append]
  simp [hrel]

/-- The second run of `_fetch_with_cache` on the cache produced by a first run
whose fetch (or stub) covered every want-date: it fetches nothing and returns
the same standardized rows. -/
theorem fetch_with_cache_idempotent (cal : BusinessCalendar)
    (fetcher : Int → Int → List RawRecord) (start stop : Int) (cache : List Segment)
    (hfresh : freshSpan cal start stop cache = true)
    (hcov : ∀ d ∈ want_dates cal start stop,
      d ∈ have_dates start stop (fetch_with_cache cal fetcher start stop cache).cache) :
    fetch_with_cache cal fetcher start stop
        (fetch_with_cache cal fetcher start stop cache).cache
      = ⟨(fetch_with_cache cal fetcher start stop cache).rows,
         (fetch_with_cache cal fetcher start stop cache).cache, []⟩ := by
  have hm2 : missing_dates cal start stop
      (fetch_with_cache cal fetcher start stop cache).cache = [] :=
    missing_dates_nil_of_covered cal start stop _ hcov
  rw [fetch_with_cache_no_missing cal fetcher start stop _ hm2]
  cases hm : missing_dates cal start stop cache with
  | nil =>
    rw [fetch_with_cache_no_missing cal fetcher start stop cache hm]
  | cons m ms =>
    have hb2 : ms.getLast?.getD m = ms.getLastD m := (List.getLastD_eq_getLast? m ms).symm
    have hall : ∀ s ∈ cache, (!(s.dFrom == m && s.dTo == ms.getLastD m)) = true := by
      unfold freshSpan at hfresh
      rw [hm] at hfresh
      exact List.all_eq_true.mp hfresh
    set b := ms.getLastD m with hbdef
    set stored := (if (fetcher m b).isEmpty then stubRecords cal m b else fetcher m b)
      with hstored
    have hfilter : cache.filter (fun s => !(s.dFrom == m && s.dTo == b)) = cache :=
      List.filter_eq_self.mpr hall
    have h1 : fetch_with_cache cal fetcher start stop cache
        = ⟨standardize (dedupFirst (cachedRecords start stop cache ++ dedupFirst stored)),
           cache.filter (fun s => !(s.dFrom == m && s.dTo == b)) ++ [⟨m, b, stored⟩],
           [(m, b)]⟩ := by
      rw [fetch_with_cache]
      rw [hm]
    rw [h1, hfilter]
    have hmb : m ∈ missing_dates cal start stop cache := by
      rw [hm]
      exact List.mem_cons_self m ms
    have hbb : b ∈ missing_dates cal start stop cache := by
      rw [hm, hbdef]
      exact List.getLastD_mem_cons ms m
    have hmw := ((mem_missing_dates cal start stop m cache).mp hmb).1
    have hbw := ((mem_missing_dates cal start stop b cache).mp hbb).1
    obtain ⟨⟨hm1, hm2b⟩, _⟩ := (mem_want_dates cal start stop m).mp hmw
    obtain ⟨⟨hb1, hb2b⟩, _⟩ := (mem_want_dates cal start stop b).mp hbw
    have hrel : (decide (start ≤ (⟨m, b, stored⟩ : Segment).dTo)
        && decide ((⟨m, b, stored⟩ : Segment).dFrom ≤ stop)) = true := by
      simp only [Bool.and_eq_true, decide_eq_true_eq]
      exact ⟨hb1, hm2b⟩
    have hcr := cachedRecords_append_segment start stop cache ⟨m, b, stored⟩ hrel
    congr 1
    rw [hcr]
    unfold cachedRecords
    rw [dedupFirst_append_left, dedupFirst_append_right]

theorem merge_caches_eq (sources : List SourceSpec) (caches : List (List Segment))
    (start stop : Int) (fc ff : Bool) :
    (DataMerger.merge sources caches start stop fc ff).caches
      = (runSources sources caches start stop).2.1 := rfl

theorem merge_requests_eq (sources : List SourceSpec) (caches : List (List Segment))
    (start stop : Int) (fc ff : Bool) :
    (DataMerger.merge sources caches start stop fc ff).requests
      = (runSources sources caches start stop).2.2 := rfl

theorem merge_panel_of_frames (sources : List SourceSpec) (caches : List (List Segment))
    (start stop : Int) (fc ff : Bool) :
    (DataMerger.merge sources caches start stop fc ff).panel
      = (if ff then
          ffillRows (List.replicate sources.length none) else id)
          (if fc then
            reindexCal start stop sources.length
              (DataMerger.mergedSorted (runSources sources caches start stop).1)
           else DataMerger.mergedSorted (runSources sources caches start stop).1) := by
  unfold DataMerger.merge
  cases fc <;> cases ff <;> simp

theorem runSources_idempotent :
    ∀ (sources : List SourceSpec) (caches : List (List Segment)) (start stop : Int),
      (∀ (i : Nat) (s : SourceSpec), sources[i]? = some s →
        freshSpan s.cal start stop (caches.getD i []) = true) →
      (∀ p ∈ sources.zip (runSources sources caches start stop).2.1,
        ∀ d ∈ want_dates p.1.cal start stop, d ∈ have_dates start stop p.2) →
      runSources sources (runSources sources caches start stop).2.1 start stop
        = ((runSources sources caches start stop).1,
           (runSources sources caches start stop).2.1, []) := by
  intro sources
  induction sources with
  | nil =>
    intro caches start stop _ _
    rfl
  | cons s ss ih =>
    intro caches start stop hfresh h
    have hrun : runSources (s :: ss) caches start stop
        = ((fetch_with_cache s.cal s.fetcher start stop (caches.headD [])).rows
            :: (runSources ss caches.tail start stop).1,
           (fetch_with_cache s.cal s.fetcher start stop (caches.headD [])).cache
            :: (runSources ss caches.tail start stop).2.1,
           (fetch_with_cache s.cal s.fetcher start stop (caches.headD [])).requests
            ++ (runSources ss caches.tail start stop).2.2) := rfl
    rw [hrun] at h ⊢
    rw [List.zip_cons_cons] at h
    have hhead := h (s, (fetch_with_cache s.cal s.fetcher start stop
      (caches.headD [])).cache) (List.mem_cons_self _ _)
    have htail : ∀ p ∈ ss.zip (runSources ss caches.tail start stop).2.1,
        ∀ d ∈ want_dates p.1.cal start stop, d ∈ have_dates start stop p.2 :=
      fun p hp => h p (List.mem_cons_of_mem _ hp)
    have hfhead : freshSpan s.cal start stop (caches.headD []) = true := by
      have h0 := hfresh 0 s (by simp)
      rwa [getD_zero_eq_headD] at h0
    have hftail : ∀ (i : Nat) (s2 : SourceSpec), ss[i]? = some s2 →
        freshSpan s2.cal start stop (caches.tail.getD i []) = true := by
      intro i s2 h2
      have h3 := hfresh (i + 1) s2 (by simpa using h2)
      rwa [getD_succ_eq_tail_getD] at h3
    have hfix := fetch_with_cache_idempotent s.cal s.fetcher start stop
      (caches.headD []) hfhead hhead
    have hihs := ih caches.tail start stop hftail htail
    show ((fetch_with_cache s.cal s.fetcher start stop _).rows :: _, _, _) = _
    rw [List.headD_cons, List.tail_cons, hfix, hihs]
    rfl

/-- C4 counterexample input: one source whose fetch returns a record only for
day 0, whatever the requested range is. -/
def sourcesIdemDemo : List SourceSpec := [⟨calDemo, fun _ _ => [⟨0, some 5⟩]⟩]

/-- C4 counterexample: the first merge over days 0..2 caches only effective
date 0, so the second identical call still finds days 1..2 missing and issues
another fetch request: it is not true that a repeated call produces identical
output with zero additional fetches. -/
theorem c4_counterexample :
    ¬ ((DataMerger.merge sourcesIdemDemo
          (DataMerger.merge sourcesIdemDemo [[]] 0 2 true true).caches
          0 2 true true).panel
        = (DataMerger.merge sourcesIdemDemo [[]] 0 2 true true).panel ∧
       (DataMerger.merge sourcesIdemDemo
          (DataMerger.merge sourcesIdemDemo [[]] 0 2 true true).caches
          0 2 true true).requests = []) := by decide

/-- C4 amended: calling `merge` twice with identical arguments is idempotent
provided (i) no source's fetched span collides with the file name of a
pre-existing segment (the parquet write would silently destroy that segment's
records) and (ii) the first call's resulting caches cover every want-date of
every source (as happens when each fetch returns records, or a stub, covering
its requested span): the second call returns an identical panel, leaves the
caches untouched, and issues zero fetch requests. -/
theorem c4_idempotent_when_covered (sources : List SourceSpec)
    (caches : List (List Segment)) (start stop : Int) (fc ff : Bool)
    (hfresh : ∀ (i : Nat) (s : SourceSpec), sources[i]? = some s →
      freshSpan s.cal start stop (caches.getD i []) = true)
    (hcov : ∀ p ∈ sources.zip
        (DataMerger.merge sources caches start stop fc ff).caches,
      ∀ d ∈ want_dates p.1.cal start stop, d ∈ have_dates start stop p.2) :
    (DataMerger.merge sources
        (DataMerger.merge sources caches start stop fc ff).caches
        start stop fc ff).panel
      = (DataMerger.merge sources caches start stop fc ff).panel ∧
    (DataMerger.merge sources
        (DataMerger.merge sources caches start stop fc ff).caches
        start stop fc ff).requests = [] ∧
    (DataMerger.merge sources
        (DataMerger.merge sources caches start stop fc ff).caches
        start stop fc ff).caches
      = (DataMerger.merge sources caches start stop fc ff).caches := by
  rw [merge_caches_eq] at hcov
  have hrs := runSources_idempotent sources caches start stop hfresh hcov
  refine ⟨?_, ?_, ?_⟩
  · rw [merge_panel_of_frames, merge_panel_of_frames, merge_caches_eq, hrs]
  · rw [merge_requests_eq, merge_caches_eq, hrs]
  · rw [merge_caches_eq, merge_caches_eq, hrs]

/-- Witness for the amended C4: a fetcher that returns one record per business
day of the fetched span, so the first call's cache covers all want-dates. -/
theorem c4_idempotent_when_covered_witness :
    (DataMerger.merge [⟨calDemo, fun a b => (dateRangeB calDemo a b).map
          (fun d => (⟨d, some 1⟩ : RawRecord))⟩]
        (DataMerger.merge [⟨calDemo, fun a b => (dateRangeB calDemo a b).map
          (fun d => (⟨d, some 1⟩ : RawRecord))⟩] [[]] 0 2 true true).caches
        0 2 true true).panel
      = (DataMerger.merge [⟨calDemo, fun a b => (dateRangeB calDemo a b).map
          (fun d => (⟨d, some 1⟩ : RawRecord))⟩] [[]] 0 2 true true).panel ∧
    (DataMerger.merge [⟨calDemo, fun a b => (dateRangeB calDemo a b).map
          (fun d => (⟨d, some 1⟩ : RawRecord))⟩]
        (DataMerger.merge [⟨calDemo, fun a b => (dateRangeB calDemo a b).map
          (fun d => (⟨d, some 1⟩ : RawRecord))⟩] [[]] 0 2 true true).caches
        0 2 true true).requests = [] ∧
    (DataMerger.merge [⟨calDemo, fun a b => (dateRangeB calDemo a b).map
          (fun d => (⟨d, some 1⟩ : RawRecord))⟩]
        (DataMerger.merge [⟨calDemo, fun a b => (dateRangeB calDemo a b).map
          (fun d => (⟨d, some 1⟩ : RawRecord))⟩] [[]] 0 2 true true).caches
        0 2 true true).caches
      = (DataMerger.merge [⟨calDemo, fun a b => (dateRangeB calDemo a b).map
          (fun d => (⟨d, some 1⟩ : RawRecord))⟩] [[]] 0 2 true true).caches :=
  c4_idempotent_when_covered
    [⟨calDemo, fun a b => (dateRangeB calDemo a b).map
      (fun d => (⟨d, some 1⟩ : RawRecord))⟩] [[]] 0 2 true true
    (by
      intro i s h
      match i with
      | 0 =>
        simp only [List.getElem?_cons_zero, Option.some.injEq] at h
        subst h
        decide
      | i + 1 => simp at h)
    (by decide)
